import Mathlib

/-!
Verification of the Turbine SPMC ring-buffer core against its source
(`src/src/lib.rs`).  The `Turbine` struct and its methods (`new`, `ep_new`,
`ep_depends`, `ep_finalize`, `finalize_graph`, `write`, `can_write`) are
shallowly embedded as pure Lean functions over an explicit state record.
Machine integers (`u64`, `usize`) are modelled as `Nat` with explicit
`% 2 ^ 64` where wrap-around matters (pre-1.0 Rust integer arithmetic wraps
silently); the atomics of the cursor table become plain naturals in this
sequential embedding, and fallible operations return `Option` / `Except`.
-/

namespace Turbine

/-- `u64::MAX`, the literal `18446744073709551615` that seeds the minimum scan
in `can_write` (lib.rs line 387). -/
def U64MAX : Nat := 2 ^ 64 - 1

/-- Wrapping `u64` subtraction `a - b`, for `a b < 2 ^ 64`.  Pre-1.0 Rust
(`self.current_pos - min_cursor`, lib.rs line 393) wraps on underflow. -/
def sub64 (a b : Nat) : Nat := (2 ^ 64 + a - b) % 2 ^ 64

/-- The `Turbine<T>` struct (lib.rs 98-108), with the record type `T`
instantiated to `Nat`.  `cursors` is the atomic cursor table (slot 0 is the
producer cursor); `ring` models the `RingBuffer` slot array.
Modelled from the spec: `RingBuffer` (module `ringbuffer`) is not in `src/`;
per spec section 4.1 it is a fixed array of `capacity` records with indexed
store and read, so it is embedded as a `List Nat`. -/
structure State where
  finalized : Bool
  epb : List (Option (List Nat))
  graph : List (List Nat)
  cursors : List Nat
  ring : List Nat
  current_pos : Nat
  size : Nat
  mask : Nat
  «until» : Nat
deriving DecidableEq

/-- `Turbine::new` (lib.rs 128-142).  Note that the cached gate `until` is
initialized to `ring_size - 1`, not `0`.
Modelled from the spec: `RingBuffer::new` is not in `src/`; spec section 4.1
says construction default-initializes every slot, so the ring starts as
`ring_size` default (`0`) records. -/
def new (ring_size : Nat) : State :=
  { finalized := false
    epb := []
    graph := []
    cursors := []
    ring := List.replicate ring_size 0
    current_pos := 0
    size := ring_size
    mask := ring_size - 1
    «until» := ring_size - 1 }

/-- `Turbine::ep_new` (lib.rs 167-175): push a fresh builder slot and return
its index, or `Err(())` if the graph is finalized. -/
def ep_new (s : State) : Except Unit Nat × State :=
  match s.finalized with
  | true => (Except.error (), s)
  | false =>
    let s' := { s with epb := s.epb ++ [none] }
    (Except.ok (s'.epb.length - 1), s')

/-- `Turbine::ep_depends` (lib.rs 240-253): `Err(())` when finalized
(checked first); otherwise append `dep` to the builder entry at `epb_index`.
The result `none` models the task failure of the pre-1.0 `Vec::get_mut`,
which fails (panics) on an out-of-bounds index. -/
def ep_depends (s : State) (epb_index dep : Nat) : Option (Except Unit Unit × State) :=
  if s.finalized = true then
    some (Except.error (), s)
  else
    if h : epb_index < s.epb.length then
      let node :=
        match s.epb.get ⟨epb_index, h⟩ with
        | some v => some (v ++ [dep])
        | none => some [dep]
      some (Except.ok (), { s with epb := s.epb.set epb_index node })
    else
      none

/-- `Turbine::finalize_graph` (lib.rs 303-323): build the adjacency list
(`Some v` kept verbatim, `None` replaced by the single root edge `[0]`) and
the cursor table (root cursor `0` followed by one zero cursor per builder
entry), then mark the graph finalized. -/
def finalize_graph (s : State) : State :=
  { s with
    graph := s.epb.map (fun node =>
      match node with
      | some v => v
      | none => [0])
    cursors := 0 :: s.epb.map (fun _ => 0)
    finalized := true }

/-- The `EventProcessor` handle returned by `ep_finalize`.
Modelled from the spec: `EventProcessor::new` (module `eventprocessor`) is not
in `src/`; per spec section 3 (Lifecycle) a consumer handle holds shared
references to the ring, the adjacency list and the cursor table, plus its
token. -/
structure EventProcessor where
  ring : List Nat
  graph : List (List Nat)
  cursors : List Nat
  token : Nat
deriving DecidableEq

/-- `Turbine::ep_finalize` (lib.rs 283-289): seal the graph on the first call
(`finalize_graph`), then hand out a handle built from the shared state. -/
def ep_finalize (s : State) (token : Nat) : State × EventProcessor :=
  let s' := if s.finalized = false then finalize_graph s else s
  (s', { ring := s'.ring, graph := s'.graph, cursors := s'.cursors, token := token })

/-- The scan loop of `can_write` (lib.rs 388-397): fold the running minimum
over the consumer cursors (the table with index 0 skipped), returning `none`
as soon as `current_pos - min_cursor >= size` under wrapping `u64`
subtraction, and otherwise the final minimum. -/
def scanLoop (p size : Nat) : List Nat → Nat → Option Nat
  | [], acc => some acc
  | c :: rest, acc =>
    let m := min acc c
    if size ≤ sub64 p m then none else scanLoop p size rest m

/-- `Turbine::can_write` (lib.rs 381-406), returning the boolean answer
together with the successor state: the scan runs only when the cached gate
`until` equals `current_pos & mask`; on scan success `until` becomes
`min_cursor & mask`; a failed scan leaves the state unchanged. -/
def can_write (s : State) : Bool × State :=
  if s.«until» = s.current_pos &&& s.mask then
    match scanLoop s.current_pos s.size (s.cursors.drop 1) U64MAX with
    | none => (false, s)
    | some m => (true, { s with «until» := m &&& s.mask })
  else
    (true, s)

/-- `Turbine::write` (lib.rs 350-371), sequentialized.  The busy-wait loop
either passes its first `can_write` (in a sequential embedding no other party
can move a cursor between iterations, so a `false` answer would spin forever):
`none` models that unbounded blocking; the method itself has no error result.
On success the record is stored at `current_pos & mask`, the position is
incremented (wrapping `u64`), and the new position is stored into cursor 0.
Modelled from the spec: `RingBuffer::write` is not in `src/`; spec section 4.1
says `write(index, record)` stores `record` at `index`. -/
def write (s : State) (data : Nat) : Option State :=
  match can_write s with
  | (false, _) => none
  | (true, s1) =>
    let write_pos := s1.current_pos &&& s1.mask
    let s2 := { s1 with ring := s1.ring.set write_pos data }
    let p' := (s2.current_pos + 1) % 2 ^ 64
    some { s2 with current_pos := p', cursors := s2.cursors.set 0 p' }

/-- Iterate `write` with a fixed record. -/
def writeN (d : Nat) : Nat → State → Option State
  | 0, s => some s
  | n + 1, s =>
    match write s d with
    | some s' => writeN d n s'
    | none => none

/-- The memory-ordering annotations of `std::sync::atomic::Ordering`
appearing in the source. -/
inductive MemOrdering where
  | relaxed
  | acquire
  | release
  | acqRel
  | seqCst
deriving DecidableEq

/-- Ordering of the producer-cursor store in `write` (lib.rs line 368):
`Ordering::SeqCst`. -/
def writeCursorStoreOrdering : MemOrdering := MemOrdering.seqCst

/-- Ordering of the consumer-cursor loads in `can_write` (lib.rs lines
389 and 391): `Ordering::SeqCst`. -/
def canWriteCursorLoadOrdering : MemOrdering := MemOrdering.seqCst

/-- The minimum over the consumer cursors (table indices 1 and above),
computed the way the scan computes it: a `min`-fold seeded with `u64::MAX`. -/
def minConsumer (s : State) : Nat := (s.cursors.drop 1).foldl min U64MAX

/-- The startup state used by the boundary claims: a fresh `Turbine` of
capacity `2 ^ t0` with one consumer, finalized. -/
def startupState (t0 : Nat) : State := (ep_finalize (ep_new (new (2 ^ t0))).2 0).1

/-- The next scan point for position `p`, gate `u` and capacity `n`: the least
`q ≥ p` with `q % n = u` (for `u < n`). -/
def gateNextAt (p u n : Nat) : Nat := p + ((u + n - p % n) % n)

/-- The next sequence at which the cached gate `until` will trigger a scan. -/
def gateNext (s : State) : Nat := gateNextAt s.current_pos s.«until» s.size

/-- One transition of the finalized system: either the producer completes a
`write` — with the `u64` sequence counter not wrapping, per the data model the
counter never wraps in practice — or one consumer cursor (table index `≥ 1`)
advances monotonically without passing the producer cursor. -/
inductive Step : State → State → Prop
  | publish (s s' : State) (d : Nat) (hnw : s.current_pos + 1 < 2 ^ 64)
      (hw : write s d = some s') : Step s s'
  | advance (s : State) (i c c' : Nat) (hi : 1 ≤ i)
      (hget : s.cursors[i]? = some c) (hmono : c ≤ c')
      (hle : c' ≤ s.current_pos) :
      Step s { s with cursors := s.cursors.set i c' }

/-- Reachability under `Step` from a given start state. -/
inductive Reach : State → State → Prop
  | refl (s : State) : Reach s s
  | tail (s t u : State) (h1 : Reach s t) (h2 : Step t u) : Reach s u

/-- The inductive invariant of the producer gate: shape facts preserved by
every step, every consumer cursor at most the producer position, and the next
scan point at most one full lap past the minimum consumer cursor. -/
def Inv (t0 : Nat) (s : State) : Prop :=
  s.size = 2 ^ t0 ∧ s.mask = s.size - 1 ∧ s.«until» < s.size ∧
  2 ≤ s.cursors.length ∧ s.current_pos < 2 ^ 64 ∧
  (∀ c ∈ s.cursors.drop 1, c ≤ s.current_pos) ∧
  gateNext s ≤ minConsumer s + s.size

/-- A one-consumer unsealed builder, used as a concrete witness state. -/
def builderOne : State := (ep_new (new 4)).2

/-- The state after one write of record 19 from the startup state, used as a
concrete witness. -/
def writeOnce : State := (write (startupState 2) 19).getD (startupState 2)

/-! ### Arithmetic helpers -/

lemma land_mask (t x : Nat) : x &&& (2 ^ t - 1) = x % 2 ^ t :=
  Nat.and_pow_two_sub_one_eq_mod x t

lemma nat_min_unfold (a b : Nat) : min a b = if a ≤ b then a else b := rfl

lemma nat_min_le_left (a b : Nat) : min a b ≤ a := by
  rw [nat_min_unfold]
  split <;> omega

lemma nat_min_le_right (a b : Nat) : min a b ≤ b := by
  rw [nat_min_unfold]
  split <;> omega

lemma nat_le_min {a b c : Nat} (hb : a ≤ b) (hc : a ≤ c) : a ≤ min b c := by
  rw [nat_min_unfold]
  split <;> omega

lemma nat_min_eq_right {a b : Nat} (h : b ≤ a) : min a b = b := by
  rw [nat_min_unfold]
  split
  · omega
  · rfl

lemma sub64_eq_sub (a b : Nat) (hb : b ≤ a) (ha : a < 2 ^ 64) : sub64 a b = a - b := by
  unfold sub64
  have h1 : 2 ^ 64 + a - b = 2 ^ 64 + (a - b) := by omega
  rw [h1, Nat.add_mod_left, Nat.mod_eq_of_lt (by omega)]

lemma foldl_min_le_init : ∀ (l : List Nat) (a : Nat), l.foldl min a ≤ a := by
  intro l
  induction l with
  | nil => intro a; exact Nat.le_refl a
  | cons c rest ih =>
    intro a
    calc (c :: rest).foldl min a = rest.foldl min (min a c) := by
          rw [List.foldl_cons]
      _ ≤ min a c := ih _
      _ ≤ a := nat_min_le_left a c

lemma foldl_min_init_mono : ∀ (l : List Nat) (a b : Nat), a ≤ b →
    l.foldl min a ≤ l.foldl min b := by
  intro l
  induction l with
  | nil => intro a b h; exact h
  | cons c rest ih =>
    intro a b h
    rw [List.foldl_cons, List.foldl_cons]
    exact ih _ _ (nat_le_min (le_trans (nat_min_le_left a c) h) (nat_min_le_right a c))

/-! ### The scan loop of `can_write` -/

/-- On a cursor list bounded by `p`, with an accumulator that has already
passed its admission check, the early-exit scan is equivalent to comparing
`p` against the full fold of the minimum. -/
lemma scanLoop_spec (p size : Nat) (hp : p < 2 ^ 64) :
    ∀ (l : List Nat) (acc : Nat), (∀ x ∈ l, x ≤ p) → acc ≤ p → p - acc < size →
      scanLoop p size l acc =
        if size ≤ p - l.foldl min acc then none else some (l.foldl min acc) := by
  intro l
  induction l with
  | nil =>
    intro acc _ _ hsz
    rw [List.foldl_nil, if_neg (by omega)]
    rfl
  | cons c rest ih =>
    intro acc hl hacc hsz
    have hc : c ≤ p := hl c (by simp)
    have hm : min acc c ≤ p := le_trans (nat_min_le_left _ _) hacc
    have hrest : ∀ x ∈ rest, x ≤ p := fun x hx => hl x (by simp [hx])
    rw [List.foldl_cons]
    simp only [scanLoop]
    rw [sub64_eq_sub _ _ hm hp]
    by_cases hcase : size ≤ p - min acc c
    · rw [if_pos hcase]
      have hfl : rest.foldl min (min acc c) ≤ min acc c := foldl_min_le_init _ _
      rw [if_pos (le_trans hcase (Nat.sub_le_sub_left hfl p))]
    · rw [if_neg hcase]
      exact ih (min acc c) hrest hm (Nat.lt_of_not_le hcase)

/-- The scan as launched by `can_write`: seeded with `u64::MAX`, on a nonempty
consumer list bounded by `p`.  It answers `none` exactly when
`p − min ≥ size`, and otherwise returns the minimum cursor. -/
lemma scanLoop_from_max (p size : Nat) (hp : p < 2 ^ 64) (c : Nat) (rest : List Nat)
    (hc : c ≤ p) (hrest : ∀ x ∈ rest, x ≤ p) :
    scanLoop p size (c :: rest) U64MAX =
      if size ≤ p - (c :: rest).foldl min U64MAX then none
      else some ((c :: rest).foldl min U64MAX) := by
  have hcm : c ≤ U64MAX := by unfold U64MAX; omega
  have hmin : min U64MAX c = c := nat_min_eq_right hcm
  have hfold : (c :: rest).foldl min U64MAX = rest.foldl min c := by
    rw [List.foldl_cons, hmin]
  rw [hfold]
  simp only [scanLoop]
  rw [hmin, sub64_eq_sub p c hc hp]
  by_cases h1 : size ≤ p - c
  · rw [if_pos h1]
    have h2 : rest.foldl min c ≤ c := foldl_min_le_init _ _
    rw [if_pos (le_trans h1 (Nat.sub_le_sub_left h2 p))]
  · rw [if_neg h1]
    exact scanLoop_spec p size hp rest c hrest hc (Nat.lt_of_not_le h1)

lemma minConsumer_le_pos (s : State) (hp : s.current_pos < 2 ^ 64)
    (hne : s.cursors.drop 1 ≠ [])
    (hle : ∀ c ∈ s.cursors.drop 1, c ≤ s.current_pos) :
    minConsumer s ≤ s.current_pos := by
  obtain ⟨c, rest, hcr⟩ := List.exists_cons_of_ne_nil hne
  have hc : c ≤ s.current_pos := hle c (by rw [hcr]; simp)
  unfold minConsumer
  rw [hcr, List.foldl_cons]
  have h1 : min U64MAX c = c := nat_min_eq_right (by unfold U64MAX; omega)
  rw [h1]
  calc rest.foldl min c ≤ c := foldl_min_le_init _ _
    _ ≤ s.current_pos := hc

/-! ### Characterization of `can_write` -/

/-- When the cached gate differs from `current_pos & mask`, `can_write`
answers `true` without scanning or touching the state. -/
lemma can_write_skip (s : State) (h : s.«until» ≠ s.current_pos &&& s.mask) :
    can_write s = (true, s) := by
  unfold can_write
  rw [if_neg h]

/-- When the cached gate matches `current_pos & mask`, `can_write` scans:
it answers `false` exactly when `current_pos − min_consumer ≥ size`, and on
success caches `min_consumer & mask` as the new gate. -/
lemma can_write_scan (s : State)
    (hp : s.current_pos < 2 ^ 64)
    (hne : s.cursors.drop 1 ≠ [])
    (hle : ∀ c ∈ s.cursors.drop 1, c ≤ s.current_pos)
    (htrig : s.«until» = s.current_pos &&& s.mask) :
    can_write s =
      if s.size ≤ s.current_pos - minConsumer s then (false, s)
      else (true, { s with «until» := minConsumer s &&& s.mask }) := by
  obtain ⟨c, rest, hcr⟩ := List.exists_cons_of_ne_nil hne
  have hc : c ≤ s.current_pos := hle c (by rw [hcr]; simp)
  have hrest : ∀ x ∈ rest, x ≤ s.current_pos := fun x hx => hle x (by rw [hcr]; simp [hx])
  unfold can_write
  rw [if_pos htrig, hcr, scanLoop_from_max _ _ hp c rest hc hrest]
  unfold minConsumer
  rw [hcr]
  by_cases h : s.size ≤ s.current_pos - (c :: rest).foldl min U64MAX
  · rw [if_pos h, if_pos h]
  · rw [if_neg h, if_neg h]

/-! ### Unfolding `write` -/

lemma write_of_can_write_true (s s1 : State) (d : Nat) (h : can_write s = (true, s1)) :
    write s d = some { s1 with
      ring := s1.ring.set (s1.current_pos &&& s1.mask) d
      current_pos := (s1.current_pos + 1) % 2 ^ 64
      cursors := s1.cursors.set 0 ((s1.current_pos + 1) % 2 ^ 64) } := by
  unfold write
  rw [h]

lemma write_of_can_write_false (s s1 : State) (d : Nat) (h : can_write s = (false, s1)) :
    write s d = none := by
  unfold write
  rw [h]

/-- Inversion: a completed `write` passed `can_write` and applied the ring
store, the position increment and the cursor-0 store to its result state. -/
lemma write_some_inv (s : State) (d : Nat) (s' : State) (hw : write s d = some s') :
    (can_write s).1 = true ∧
    s' = { (can_write s).2 with
           ring := (can_write s).2.ring.set
             ((can_write s).2.current_pos &&& (can_write s).2.mask) d
           current_pos := ((can_write s).2.current_pos + 1) % 2 ^ 64
           cursors := (can_write s).2.cursors.set 0
             (((can_write s).2.current_pos + 1) % 2 ^ 64) } := by
  rcases hcw : can_write s with ⟨b, s1⟩
  cases b
  · rw [write_of_can_write_false s s1 d hcw] at hw
    exact absurd hw (by simp)
  · rw [write_of_can_write_true s s1 d hcw] at hw
    exact ⟨rfl, (Option.some_inj.mp hw).symm⟩

/-! ### The cached-gate invariant -/

lemma gateNextAt_ge (p u n : Nat) : p ≤ gateNextAt p u n :=
  Nat.le_add_right _ _

lemma gateNextAt_lt (p u n : Nat) (hpos : 0 < n) : gateNextAt p u n < p + n :=
  Nat.add_lt_add_left (Nat.mod_lt _ hpos) _

lemma gateNextAt_mod (p u n : Nat) (hpos : 0 < n) (hu : u < n) :
    gateNextAt p u n % n = u := by
  unfold gateNextAt
  rw [Nat.add_mod_mod]
  have hle : p % n ≤ p := Nat.mod_le _ _
  have h1 : p % n < n := Nat.mod_lt _ hpos
  have hdm : n * (p / n) + p % n = p := Nat.div_add_mod _ _
  have h3 : p + (u + n - p % n) = n * (p / n) + (u + n) := by omega
  rw [h3, Nat.mul_add_mod, Nat.add_mod_right, Nat.mod_eq_of_lt hu]

/-- Two numbers in the same window of length `n` with equal residues mod `n`
are equal. -/
lemma mod_window_eq {n a x y : Nat} (hx1 : a ≤ x) (hx2 : x < a + n)
    (hy1 : a ≤ y) (hy2 : y < a + n) (hmod : x % n = y % n) : x = y := by
  rcases Nat.le_total x y with h | h
  · have hd : n ∣ y - x := (Nat.modEq_iff_dvd' h).mp hmod
    have hz : y - x = 0 := Nat.eq_zero_of_dvd_of_lt hd (by omega)
    omega
  · have hd : n ∣ x - y := (Nat.modEq_iff_dvd' h).mp hmod.symm
    have hz : x - y = 0 := Nat.eq_zero_of_dvd_of_lt hd (by omega)
    omega

/-- Advancing the position by one step that has not yet reached the scan point
leaves the scan point unchanged. -/
lemma gateNextAt_succ (p u n : Nat) (hpos : 0 < n) (hu : u < n)
    (h : p + 1 ≤ gateNextAt p u n) : gateNextAt (p + 1) u n = gateNextAt p u n := by
  apply mod_window_eq (n := n) (a := p + 1)
  · exact gateNextAt_ge _ _ _
  · exact gateNextAt_lt _ _ _ hpos
  · exact h
  · have := gateNextAt_lt p u n hpos
    omega
  · rw [gateNextAt_mod _ _ _ hpos hu, gateNextAt_mod _ _ _ hpos hu]

/-- After a successful rescan at position `p` with minimum cursor `m`
(`m ≤ p < m + n`), the new scan point for position `p + 1` and gate `m % n`
is exactly `m + n`. -/
lemma gateNextAt_rescan (p m n : Nat) (hpos : 0 < n) (hm : m ≤ p) (hlt : p < m + n) :
    gateNextAt (p + 1) (m % n) n = m + n := by
  apply mod_window_eq (n := n) (a := p + 1)
  · exact gateNextAt_ge _ _ _
  · exact gateNextAt_lt _ _ _ hpos
  · omega
  · omega
  · rw [gateNextAt_mod _ _ _ hpos (Nat.mod_lt _ hpos), Nat.add_mod_right]

lemma drop_one_set_zero (l : List Nat) (x : Nat) (hl : l ≠ []) :
    (l.set 0 x).drop 1 = l.drop 1 := by
  obtain ⟨c, rest, rfl⟩ := List.exists_cons_of_ne_nil hl
  rfl

lemma drop_one_ne_nil {l : List Nat} (h : 2 ≤ l.length) : l.drop 1 ≠ [] := by
  intro hnil
  have hlen : (l.drop 1).length = l.length - 1 := List.length_drop 1 l
  rw [hnil] at hlen
  simp at hlen
  omega

/-- Replacing one element of the list by a larger one can only increase the
`min`-fold. -/
lemma foldl_min_set_ge : ∀ (l : List Nat) (a i c c' : Nat),
    l[i]? = some c → c ≤ c' → l.foldl min a ≤ (l.set i c').foldl min a := by
  intro l
  induction l with
  | nil =>
    intro a i c c' h _
    simp at h
  | cons x xs ih =>
    intro a i c c' h hcc
    cases i with
    | zero =>
      have hx : x = c := by simpa using h
      subst hx
      show (x :: xs).foldl min a ≤ (c' :: xs).foldl min a
      rw [List.foldl_cons, List.foldl_cons]
      refine foldl_min_init_mono xs _ _ ?_
      exact nat_le_min (nat_min_le_left a x) (le_trans (nat_min_le_right a x) hcc)
    | succ j =>
      show (x :: xs).foldl min a ≤ (x :: xs.set j c').foldl min a
      rw [List.foldl_cons, List.foldl_cons]
      exact ih _ j c c' (by simpa using h) hcc

/-- Every step of the finalized system preserves the gate invariant. -/
lemma step_preserves (t0 : Nat) (s s' : State) (hinv : Inv t0 s) (hstep : Step s s') :
    Inv t0 s' := by
  obtain ⟨hsize, hmask, hu, hlen, hp, hcons, hgate⟩ := hinv
  have hpos : 0 < s.size := by rw [hsize]; exact Nat.two_pow_pos t0
  have hne : s.cursors ≠ [] := by
    intro h
    rw [h] at hlen
    simp at hlen
  have hdne : s.cursors.drop 1 ≠ [] := drop_one_ne_nil hlen
  have hpm : s.current_pos &&& s.mask = s.current_pos % s.size := by
    rw [hmask, hsize]
    exact land_mask t0 _
  cases hstep with
  | publish _ d hnw hw =>
    obtain ⟨hb, hs'⟩ := write_some_inv s d s' hw
    have hp1 : (s.current_pos + 1) % 2 ^ 64 = s.current_pos + 1 := Nat.mod_eq_of_lt hnw
    by_cases htrig : s.«until» = s.current_pos &&& s.mask
    · -- scan path
      rw [can_write_scan s hp hdne hcons htrig] at hb hs'
      by_cases hstall : s.size ≤ s.current_pos - minConsumer s
      · rw [if_pos hstall] at hb
        simp at hb
      · rw [if_neg hstall] at hs'
        have hmlep : minConsumer s ≤ s.current_pos := minConsumer_le_pos s hp hdne hcons
        have hmlt : s.current_pos < minConsumer s + s.size := by omega
        have hmask_eq : minConsumer s &&& s.mask = minConsumer s % s.size := by
          rw [hmask, hsize]
          exact land_mask t0 _
        subst hs'
        refine ⟨hsize, hmask, ?_, ?_, ?_, ?_, ?_⟩
        · show minConsumer s &&& s.mask < s.size
          rw [hmask_eq]
          exact Nat.mod_lt _ hpos
        · show 2 ≤ (s.cursors.set 0 ((s.current_pos + 1) % 2 ^ 64)).length
          rw [List.length_set]
          exact hlen
        · show (s.current_pos + 1) % 2 ^ 64 < 2 ^ 64
          exact Nat.mod_lt _ (Nat.two_pow_pos 64)
        · show ∀ c ∈ (s.cursors.set 0 ((s.current_pos + 1) % 2 ^ 64)).drop 1,
            c ≤ (s.current_pos + 1) % 2 ^ 64
          rw [drop_one_set_zero _ _ hne, hp1]
          intro c hc
          exact le_trans (hcons c hc) (Nat.le_succ _)
        · show gateNextAt ((s.current_pos + 1) % 2 ^ 64) (minConsumer s &&& s.mask) s.size
            ≤ ((s.cursors.set 0 ((s.current_pos + 1) % 2 ^ 64)).drop 1).foldl min U64MAX
              + s.size
          rw [drop_one_set_zero _ _ hne, hp1, hmask_eq]
          have hfold : (s.cursors.drop 1).foldl min U64MAX = minConsumer s := rfl
          rw [hfold, gateNextAt_rescan s.current_pos (minConsumer s) s.size hpos hmlep hmlt]
    · -- cached-gate skip path
      rw [can_write_skip s htrig] at hs'
      have hne2 : s.«until» ≠ s.current_pos % s.size := by
        rw [← hpm]
        exact htrig
      have hgt : s.current_pos + 1 ≤ gateNextAt s.current_pos s.«until» s.size := by
        rcases Nat.lt_or_ge s.current_pos (gateNextAt s.current_pos s.«until» s.size) with h | h
        · omega
        · have heq : gateNextAt s.current_pos s.«until» s.size = s.current_pos :=
            Nat.le_antisymm h (gateNextAt_ge _ _ _)
          have := gateNextAt_mod s.current_pos s.«until» s.size hpos hu
          rw [heq] at this
          exact absurd this.symm hne2
      subst hs'
      refine ⟨hsize, hmask, hu, ?_, ?_, ?_, ?_⟩
      · show 2 ≤ (s.cursors.set 0 ((s.current_pos + 1) % 2 ^ 64)).length
        rw [List.length_set]
        exact hlen
      · show (s.current_pos + 1) % 2 ^ 64 < 2 ^ 64
        exact Nat.mod_lt _ (Nat.two_pow_pos 64)
      · show ∀ c ∈ (s.cursors.set 0 ((s.current_pos + 1) % 2 ^ 64)).drop 1,
          c ≤ (s.current_pos + 1) % 2 ^ 64
        rw [drop_one_set_zero _ _ hne, hp1]
        intro c hc
        exact le_trans (hcons c hc) (Nat.le_succ _)
      · show gateNextAt ((s.current_pos + 1) % 2 ^ 64) s.«until» s.size
          ≤ ((s.cursors.set 0 ((s.current_pos + 1) % 2 ^ 64)).drop 1).foldl min U64MAX
            + s.size
        rw [drop_one_set_zero _ _ hne, hp1,
          gateNextAt_succ s.current_pos s.«until» s.size hpos hu hgt]
        exact hgate
  | advance i c c' hi hget hmono hle =>
    obtain ⟨c0, rest, hcr⟩ := List.exists_cons_of_ne_nil hne
    obtain ⟨j, rfl⟩ : ∃ j, i = j + 1 := ⟨i - 1, by omega⟩
    have hgetj : rest[j]? = some c := by
      rw [hcr] at hget
      simpa using hget
    have hdrop : s.cursors.drop 1 = rest := by
      rw [hcr]
      simp
    have hmc : minConsumer s = rest.foldl min U64MAX := by
      unfold minConsumer
      rw [hdrop]
    have hsetdrop : (s.cursors.set (j + 1) c').drop 1 = rest.set j c' := by
      rw [hcr]
      simp
    refine ⟨hsize, hmask, hu, ?_, hp, ?_, ?_⟩
    · show 2 ≤ (s.cursors.set (j + 1) c').length
      rw [List.length_set]
      exact hlen
    · show ∀ x ∈ (s.cursors.set (j + 1) c').drop 1, x ≤ s.current_pos
      rw [hsetdrop]
      intro x hx
      rcases List.mem_or_eq_of_mem_set hx with hmem | rfl
      · refine hcons x ?_
        rw [hdrop]
        exact hmem
      · exact hle
    · show gateNextAt s.current_pos s.«until» s.size
        ≤ ((s.cursors.set (j + 1) c').drop 1).foldl min U64MAX + s.size
      rw [hsetdrop]
      refine le_trans hgate (Nat.add_le_add_right ?_ _)
      rw [hmc]
      exact foldl_min_set_ge rest U64MAX j c c' hgetj hmono

/-- The invariant propagates along reachability. -/
lemma reach_preserves (t0 : Nat) (s0 s : State) (hinv : Inv t0 s0) (hr : Reach s0 s) :
    Inv t0 s := by
  induction hr with
  | refl => exact hinv
  | tail t u h1 h2 ih => exact step_preserves t0 t u ih h2

/-- A freshly finalized state — position `0`, gate cache `size − 1`, all
cursors `0` — satisfies the gate invariant. -/
lemma initial_inv (t0 : Nat) (s0 : State)
    (hsize : s0.size = 2 ^ t0) (hmask : s0.mask = s0.size - 1)
    (hpos0 : s0.current_pos = 0) (hu0 : s0.«until» = s0.size - 1)
    (hz : ∀ c ∈ s0.cursors, c = 0) (hlen : 2 ≤ s0.cursors.length) :
    Inv t0 s0 := by
  have hpos : 0 < s0.size := by rw [hsize]; exact Nat.two_pow_pos t0
  have hdne : s0.cursors.drop 1 ≠ [] := drop_one_ne_nil hlen
  have hz1 : ∀ c ∈ s0.cursors.drop 1, c = 0 := fun c hc => hz c (List.mem_of_mem_drop hc)
  have hmin0 : minConsumer s0 = 0 := by
    obtain ⟨c, rest, hcr⟩ := List.exists_cons_of_ne_nil hdne
    have hc0 : c = 0 := hz1 c (by rw [hcr]; simp)
    unfold minConsumer
    rw [hcr, List.foldl_cons]
    subst hc0
    rw [nat_min_eq_right (Nat.zero_le _)]
    exact Nat.le_antisymm (foldl_min_le_init _ _) (Nat.zero_le _)
  refine ⟨hsize, hmask, by omega, hlen, by omega, ?_, ?_⟩
  · intro c hc
    have := hz1 c hc
    omega
  · have hlt : gateNext s0 < s0.current_pos + s0.size := gateNextAt_lt _ _ _ hpos
    rw [hmin0]
    omega

/-- C1: after finalization, along every sequence of completed writes and
monotone consumer-cursor advances that never exceed the producer cursor,
every reachable state satisfies
`producer_cursor − min_consumer_cursor ≤ capacity`. -/
theorem capacity_bound_reachable (t0 : Nat) (s0 s : State)
    (hsize : s0.size = 2 ^ t0) (hmask : s0.mask = s0.size - 1)
    (hpos0 : s0.current_pos = 0) (hu0 : s0.«until» = s0.size - 1)
    (hz : ∀ c ∈ s0.cursors, c = 0) (hlen : 2 ≤ s0.cursors.length)
    (hr : Reach s0 s) :
    s.current_pos - minConsumer s ≤ s.size := by
  have hinv := reach_preserves t0 s0 s (initial_inv t0 s0 hsize hmask hpos0 hu0 hz hlen) hr
  obtain ⟨_, _, _, _, _, _, hgate⟩ := hinv
  have hge : s.current_pos ≤ gateNext s := gateNextAt_ge _ _ _
  omega

theorem capacity_bound_reachable_witness :
    (startupState 2).size = 2 ^ 2
    ∧ (startupState 2).mask = (startupState 2).size - 1
    ∧ (startupState 2).current_pos = 0
    ∧ (startupState 2).«until» = (startupState 2).size - 1
    ∧ (∀ c ∈ (startupState 2).cursors, c = 0)
    ∧ 2 ≤ (startupState 2).cursors.length
    ∧ (startupState 2).current_pos - minConsumer (startupState 2)
        ≤ (startupState 2).size :=
  ⟨by decide, by decide, by decide, by decide, by decide, by decide,
    capacity_bound_reachable 2 (startupState 2) (startupState 2) (by decide) (by decide)
      (by decide) (by decide) (by decide) (by decide) (Reach.refl _)⟩

/-- C2: the admission check answers `true` without a scan (state unchanged)
whenever the cached gate differs from `current_pos & mask`; otherwise it
scans the consumer cursors (table indices 1 and above, skipping the
producer's own cursor at index 0), answers `false` exactly when
`current_pos − min_consumer ≥ capacity` (the stall test is `≥`, not `>`),
and on success caches `min_consumer & mask` as the new gate.  The producer
states range over the spec's data-model invariant: consumer cursors do not
exceed the producer cursor. -/
theorem can_write_admission (s : State)
    (hp : s.current_pos < 2 ^ 64)
    (hlen : 2 ≤ s.cursors.length)
    (hle : ∀ c ∈ s.cursors.drop 1, c ≤ s.current_pos) :
    (s.«until» ≠ s.current_pos &&& s.mask → can_write s = (true, s))
    ∧ (s.«until» = s.current_pos &&& s.mask →
        ((can_write s).1 = false ↔ s.size ≤ s.current_pos - minConsumer s)
        ∧ ((can_write s).1 = true →
            can_write s = (true, { s with «until» := minConsumer s &&& s.mask }))) := by
  have hdne := drop_one_ne_nil hlen
  constructor
  · exact can_write_skip s
  · intro htrig
    rw [can_write_scan s hp hdne hle htrig]
    by_cases h : s.size ≤ s.current_pos - minConsumer s
    · rw [if_pos h]
      exact ⟨by simp [h], by simp⟩
    · rw [if_neg h]
      exact ⟨by simp [h], fun _ => rfl⟩

theorem can_write_admission_witness :
    (startupState 2).current_pos < 2 ^ 64
    ∧ 2 ≤ (startupState 2).cursors.length
    ∧ ((startupState 2).«until» ≠ (startupState 2).current_pos &&& (startupState 2).mask →
        can_write (startupState 2) = (true, startupState 2)) :=
  ⟨by decide, by decide,
    (can_write_admission (startupState 2) (by decide) (by decide) (by decide)).1⟩

/-- C3 counterexample: immediately after construction and finalization with
capacity 4 — all consumer cursors 0 and `next_seq = 0` — the cached gate is
`3`, not `0`, and the very first admission check performs no scan: it grants
admission with the state (in particular the gate cache) unchanged, whereas a
scan would have recached the gate as `min_consumer & mask = 0`. -/
theorem startup_gate_counterexample :
    (startupState 2).«until» ≠ 0
    ∧ can_write (startupState 2) = (true, startupState 2) := by
  constructor
  · decide
  · decide

/-- C3 amended: at startup the cached gate equals `capacity − 1`, not `0`,
so for every capacity `2 ^ t0` with `t0 ≥ 1` the very first admission check
does not scan: it returns `true` with the state unchanged (the first scan
only happens at sequence `capacity − 1`). Admission is granted either way. -/
theorem startup_first_check_skips_scan (t0 : Nat) (ht : 1 ≤ t0) :
    (startupState t0).«until» = 2 ^ t0 - 1
    ∧ can_write (startupState t0) = (true, startupState t0) := by
  have hcap2 : 2 ≤ 2 ^ t0 := by
    calc 2 = 2 ^ 1 := rfl
      _ ≤ 2 ^ t0 := Nat.pow_le_pow_right (by omega) ht
  have hu : (startupState t0).«until» = 2 ^ t0 - 1 := rfl
  refine ⟨hu, ?_⟩
  apply can_write_skip
  rw [hu]
  have hpos : (startupState t0).current_pos = 0 := rfl
  rw [hpos, Nat.zero_and]
  omega

theorem startup_first_check_skips_scan_witness :
    1 ≤ 2
    ∧ ((startupState 2).«until» = 2 ^ 2 - 1
        ∧ can_write (startupState 2) = (true, startupState 2)) :=
  ⟨by decide, startup_first_check_skips_scan 2 (by decide)⟩

/-! ### Write trajectories from the startup state -/

lemma writeN_add_one (d : Nat) : ∀ (n : Nat) (s s' : State),
    writeN d n s = some s' → writeN d (n + 1) s = write s' d := by
  intro n
  induction n with
  | zero =>
    intro s s' h
    have hs : s = s' := by simpa [writeN] using h
    subst hs
    show (match write s d with
          | some t => writeN d 0 t
          | none => none) = write s d
    cases write s d
    · rfl
    · rfl
  | succ k ih =>
    intro s s' h
    rw [show writeN d (k + 1) s = (match write s d with
          | some t => writeN d k t
          | none => none) from rfl] at h
    show (match write s d with
          | some t => writeN d (k + 1) t
          | none => none) = write s' d
    cases hw : write s d with
    | none =>
      rw [hw] at h
      exact absurd h (by simp)
    | some t =>
      rw [hw] at h
      exact ih t s' h

/-- `can_write` at a two-cursor table `[a, b]` with position `a` and a
matching gate cache: the scan runs and compares `a − b` against the
capacity. -/
lemma can_write_two (s : State) (t0 a b : Nat)
    (hsz : s.size = 2 ^ t0) (hmk : s.mask = 2 ^ t0 - 1)
    (hcur : s.cursors = [a, b]) (hpa : s.current_pos = a) (hab : b ≤ a)
    (ha : a < 2 ^ 64)
    (htrig : s.«until» = a &&& (2 ^ t0 - 1)) :
    can_write s = if 2 ^ t0 ≤ a - b then (false, s)
      else (true, { s with «until» := b &&& s.mask }) := by
  have hdne : s.cursors.drop 1 ≠ [] := by rw [hcur]; simp
  have hle : ∀ c ∈ s.cursors.drop 1, c ≤ s.current_pos := by
    rw [hcur, hpa]
    intro c hc
    simp at hc
    omega
  have hminc : minConsumer s = b := by
    unfold minConsumer
    rw [hcur]
    show min U64MAX b = b
    refine nat_min_eq_right ?_
    unfold U64MAX
    omega
  have htrig' : s.«until» = s.current_pos &&& s.mask := by
    rw [hpa, hmk]
    exact htrig
  rw [can_write_scan s (by omega) hdne hle htrig', hminc, hsz, hpa]

/-- The first `capacity − 1` writes from the startup state proceed without a
scan: after `k ≤ capacity − 1` completed writes the position and the
producer cursor are `k`, the consumer cursor is still `0`, and the gate
cache still holds `capacity − 1`. -/
lemma writeN_startup (t0 : Nat) (ht1 : 1 ≤ t0) (ht2 : t0 ≤ 63) (d : Nat) :
    ∀ k, k ≤ 2 ^ t0 - 1 →
      ∃ s, writeN d k (startupState t0) = some s
        ∧ s.current_pos = k ∧ s.«until» = 2 ^ t0 - 1
        ∧ s.cursors = [k, 0] ∧ s.size = 2 ^ t0 ∧ s.mask = 2 ^ t0 - 1 := by
  have hcap2 : 2 ≤ 2 ^ t0 := by
    calc 2 = 2 ^ 1 := rfl
      _ ≤ 2 ^ t0 := Nat.pow_le_pow_right (by omega) ht1
  have hcaple : 2 ^ t0 ≤ 2 ^ 63 := Nat.pow_le_pow_right (by omega) ht2
  intro k
  induction k with
  | zero =>
    intro _
    exact ⟨startupState t0, rfl, rfl, rfl, rfl, rfl, rfl⟩
  | succ k ih =>
    intro hk1
    obtain ⟨s, hws, hpos, hu, hcur, hsz, hmk⟩ := ih (by omega)
    have hz : s.current_pos &&& s.mask = k := by
      rw [hpos, hmk, land_mask]
      exact Nat.mod_eq_of_lt (by omega)
    have hskip : can_write s = (true, s) := by
      apply can_write_skip
      rw [hu, hz]
      omega
    refine ⟨{ s with
        ring := s.ring.set (s.current_pos &&& s.mask) d
        current_pos := (s.current_pos + 1) % 2 ^ 64
        cursors := s.cursors.set 0 ((s.current_pos + 1) % 2 ^ 64) },
      ?_, ?_, hu, ?_, hsz, hmk⟩
    · rw [writeN_add_one d k (startupState t0) s hws]
      exact write_of_can_write_true s s d hskip
    · show (s.current_pos + 1) % 2 ^ 64 = k + 1
      rw [hpos]
      exact Nat.mod_eq_of_lt (by omega)
    · show s.cursors.set 0 ((s.current_pos + 1) % 2 ^ 64) = [k + 1, 0]
      rw [hcur, hpos, Nat.mod_eq_of_lt (show k + 1 < 2 ^ 64 by omega)]
      rfl

/-- C4 counterexample: with capacity 4 and the single consumer cursor fixed
at 0, all of the first 4 writes complete — the capacity-th write's admission
check passes rather than stalling — and it is the 5th write that stalls. -/
theorem capacity_th_write_completes :
    (writeN 7 4 (startupState 2)).isSome = true
    ∧ writeN 7 5 (startupState 2) = none := by
  constructor
  · decide
  · decide

/-- C4 amended: with one consumer whose cursor stays at 0, writing exactly
`capacity` records succeeds (the first `capacity − 1` admission checks skip
the scan; the `capacity`-th scans and passes), the `capacity + 1`-st write
stalls — its admission check returns `false` — and it succeeds again as soon
as the consumer cursor advances to any value `c ≥ 1`. -/
theorem capacity_writes_then_stall (t0 : Nat) (ht1 : 1 ≤ t0) (ht2 : t0 ≤ 63) (d : Nat) :
    ∃ s, writeN d (2 ^ t0) (startupState t0) = some s
      ∧ s.current_pos = 2 ^ t0
      ∧ s.cursors = [2 ^ t0, 0]
      ∧ write s d = none
      ∧ ∀ c, 1 ≤ c → c ≤ 2 ^ t0 →
          (write { s with cursors := [2 ^ t0, c] } d).isSome = true := by
  have hcap2 : 2 ≤ 2 ^ t0 := by
    calc 2 = 2 ^ 1 := rfl
      _ ≤ 2 ^ t0 := Nat.pow_le_pow_right (by omega) ht1
  have hcaple : 2 ^ t0 ≤ 2 ^ 63 := Nat.pow_le_pow_right (by omega) ht2
  obtain ⟨s, hws, hpos, hu, hcur, hsz, hmk⟩ :=
    writeN_startup t0 ht1 ht2 d (2 ^ t0 - 1) (Nat.le_refl _)
  have htrig : s.«until» = (2 ^ t0 - 1) &&& (2 ^ t0 - 1) := by
    rw [hu, land_mask, Nat.mod_eq_of_lt (by omega)]
  have hscan := can_write_two s t0 (2 ^ t0 - 1) 0 hsz hmk hcur hpos (Nat.zero_le _)
    (by omega) htrig
  rw [if_neg (by omega)] at hscan
  have hw1 := write_of_can_write_true s _ d hscan
  set W : State := { s with
      «until» := 0 &&& s.mask
      ring := s.ring.set (s.current_pos &&& s.mask) d
      current_pos := (s.current_pos + 1) % 2 ^ 64
      cursors := s.cursors.set 0 ((s.current_pos + 1) % 2 ^ 64) } with hW
  have hWu : W.«until» = 0 := by
    rw [hW]
    show 0 &&& s.mask = 0
    exact Nat.zero_and _
  have hWpos : W.current_pos = 2 ^ t0 := by
    rw [hW]
    show (s.current_pos + 1) % 2 ^ 64 = 2 ^ t0
    rw [hpos, show 2 ^ t0 - 1 + 1 = 2 ^ t0 by omega]
    exact Nat.mod_eq_of_lt (by omega)
  have hWcur : W.cursors = [2 ^ t0, 0] := by
    rw [hW]
    show s.cursors.set 0 ((s.current_pos + 1) % 2 ^ 64) = [2 ^ t0, 0]
    rw [hcur, hpos, show 2 ^ t0 - 1 + 1 = 2 ^ t0 by omega,
      Nat.mod_eq_of_lt (show 2 ^ t0 < 2 ^ 64 by omega)]
    rfl
  have hWsz : W.size = 2 ^ t0 := hsz
  have hWmk : W.mask = 2 ^ t0 - 1 := hmk
  have htrigW : W.«until» = 2 ^ t0 &&& (2 ^ t0 - 1) := by
    rw [hWu, land_mask, Nat.mod_self]
  have hstall : can_write W = (false, W) := by
    have h := can_write_two W t0 (2 ^ t0) 0 hWsz hWmk hWcur hWpos (Nat.zero_le _)
      (by omega) htrigW
    rw [if_pos (by omega)] at h
    exact h
  refine ⟨W, ?_, hWpos, hWcur, write_of_can_write_false W W d hstall, ?_⟩
  · rw [show (2 : Nat) ^ t0 = 2 ^ t0 - 1 + 1 by omega,
      writeN_add_one d (2 ^ t0 - 1) (startupState t0) s hws, hW]
    exact hw1
  · intro c hc1 hc2
    have hVcur : ({ W with cursors := [2 ^ t0, c] } : State).cursors = [2 ^ t0, c] := rfl
    have hcw := can_write_two { W with cursors := [2 ^ t0, c] } t0 (2 ^ t0) c
      hWsz hWmk hVcur hWpos hc2 (by omega) htrigW
    rw [if_neg (by omega)] at hcw
    rw [write_of_can_write_true _ _ d hcw]
    rfl

theorem capacity_writes_then_stall_witness :
    1 ≤ 2 ∧ 2 ≤ 63
    ∧ (∃ s, writeN 19 (2 ^ 2) (startupState 2) = some s
        ∧ s.current_pos = 2 ^ 2
        ∧ s.cursors = [2 ^ 2, 0]
        ∧ write s 19 = none
        ∧ ∀ c, 1 ≤ c → c ≤ 2 ^ 2 →
            (write { s with cursors := [2 ^ 2, c] } 19).isSome = true) :=
  ⟨by decide, by decide, capacity_writes_then_stall 2 (by decide) (by decide) 19⟩

/-! ### Builder operations -/

lemma ep_new_finalized (s : State) (hf : s.finalized = true) :
    ep_new s = (Except.error (), s) := by
  unfold ep_new
  rw [hf]

lemma ep_new_unsealed (s : State) (hf : s.finalized = false) :
    ep_new s = (Except.ok s.epb.length, { s with epb := s.epb ++ [none] }) := by
  unfold ep_new
  rw [hf]
  simp

lemma ep_depends_sealed (s : State) (i d : Nat) (hf : s.finalized = true) :
    ep_depends s i d = some (Except.error (), s) := by
  unfold ep_depends
  rw [hf]
  simp

lemma ep_depends_unsealed (s : State) (i d : Nat) (hf : s.finalized = false)
    (hi : i < s.epb.length) :
    ep_depends s i d = some (Except.ok (),
      { s with epb := s.epb.set i (some ((s.epb.get ⟨i, hi⟩).getD [] ++ [d])) }) := by
  unfold ep_depends
  rw [hf, if_neg (by simp), dif_pos hi]
  cases hg : s.epb.get ⟨i, hi⟩ with
  | some v => simp [hg]
  | none => simp [hg]

lemma ep_depends_oob (s : State) (i d : Nat) (hf : s.finalized = false)
    (hi : s.epb.length ≤ i) : ep_depends s i d = none := by
  unfold ep_depends
  rw [hf, if_neg (by simp), dif_neg (by omega)]

/-- C5: the two builder entry points return the sealed error exactly when the
graph has been finalized; on an unsealed builder `ep_new` allocates a fresh
slot and `ep_depends` (at an index returned by `ep_new`) appends the
upstream id to the dependent's adjacency list. -/
theorem builder_sealed_iff (s : State) (i d : Nat) (hi : i < s.epb.length) :
    ((∃ n, (ep_new s).1 = Except.ok n) ↔ s.finalized = false)
    ∧ (∃ r, ep_depends s i d = some r ∧ (r.1 = Except.ok () ↔ s.finalized = false))
    ∧ (s.finalized = false →
        (ep_new s).2.epb = s.epb ++ [none]
        ∧ ep_depends s i d = some (Except.ok (),
            { s with epb := s.epb.set i (some ((s.epb.get ⟨i, hi⟩).getD [] ++ [d])) })) := by
  by_cases hf : s.finalized = true
  · rw [ep_new_finalized s hf, ep_depends_sealed s i d hf]
    refine ⟨by simp [hf], ⟨(Except.error (), s), rfl, by simp [hf]⟩, ?_⟩
    intro h
    rw [h] at hf
    exact absurd hf (by simp)
  · have hf' : s.finalized = false := by
      cases hq : s.finalized
      · rfl
      · exact absurd hq hf
    rw [ep_new_unsealed s hf', ep_depends_unsealed s i d hf' hi]
    refine ⟨?_, ⟨_, rfl, by simp [hf']⟩, fun _ => ⟨rfl, rfl⟩⟩
    constructor
    · intro _
      exact hf'
    · intro _
      exact ⟨s.epb.length, rfl⟩

theorem builder_sealed_iff_witness :
    0 < builderOne.epb.length
    ∧ ((∃ n, (ep_new builderOne).1 = Except.ok n) ↔ builderOne.finalized = false) :=
  ⟨by decide, (builder_sealed_iff builderOne 0 5 (by decide)).1⟩

lemma ep_finalize_unsealed (s : State) (tok : Nat) (hf : s.finalized = false) :
    (ep_finalize s tok).1 = finalize_graph s := by
  unfold ep_finalize
  rw [hf]
  simp

lemma ep_finalize_sealed (s : State) (tok : Nat) (hf : s.finalized = true) :
    (ep_finalize s tok).1 = s := by
  unfold ep_finalize
  rw [hf]
  simp

lemma ep_finalize_idem (s : State) (tok tok' : Nat) :
    (ep_finalize (ep_finalize s tok).1 tok').1 = (ep_finalize s tok).1 := by
  cases hf : s.finalized with
  | false =>
    rw [ep_finalize_unsealed s tok hf]
    exact ep_finalize_sealed _ _ rfl
  | true =>
    rw [ep_finalize_sealed s tok hf]
    exact ep_finalize_sealed _ _ hf

/-- C6: the first `ep_finalize` seals the graph — mapping each builder entry
`Some v` verbatim to `v`, each `None` (no declared dependency) to the single
producer edge `[0]`, and building the cursor table as the producer cursor at
slot 0 followed by one zero cursor per consumer — while any later call
leaves the sealed state untouched (idempotent) and merely hands out a
further handle built from the same shared tables. -/
theorem finalize_seals_once (s : State) (tok tok' : Nat) :
    (s.finalized = false → (ep_finalize s tok).1 = finalize_graph s)
    ∧ (s.finalized = true → (ep_finalize s tok).1 = s)
    ∧ (finalize_graph s).graph
        = s.epb.map (fun node => match node with | some v => v | none => [0])
    ∧ (finalize_graph s).cursors = 0 :: s.epb.map (fun _ => 0)
    ∧ (finalize_graph s).finalized = true
    ∧ (ep_finalize (ep_finalize s tok).1 tok').1 = (ep_finalize s tok).1
    ∧ (ep_finalize (ep_finalize s tok).1 tok').2
        = { ring := (ep_finalize s tok).1.ring
            graph := (ep_finalize s tok).1.graph
            cursors := (ep_finalize s tok).1.cursors
            token := tok' } := by
  refine ⟨ep_finalize_unsealed s tok, ep_finalize_sealed s tok, rfl, rfl, rfl,
    ep_finalize_idem s tok tok', ?_⟩
  have h := ep_finalize_idem s tok tok'
  show ({ ring := (ep_finalize (ep_finalize s tok).1 tok').1.ring
          graph := (ep_finalize (ep_finalize s tok).1 tok').1.graph
          cursors := (ep_finalize (ep_finalize s tok).1 tok').1.cursors
          token := tok' } : EventProcessor) = _
  rw [h]

theorem finalize_seals_once_witness :
    ((new 4).finalized = false → (ep_finalize (new 4) 0).1 = finalize_graph (new 4))
    ∧ ((new 4).finalized = true → (ep_finalize (new 4) 0).1 = new 4)
    ∧ (finalize_graph (new 4)).graph
        = (new 4).epb.map (fun node => match node with | some v => v | none => [0])
    ∧ (finalize_graph (new 4)).cursors = 0 :: (new 4).epb.map (fun _ => 0)
    ∧ (finalize_graph (new 4)).finalized = true
    ∧ (ep_finalize (ep_finalize (new 4) 0).1 1).1 = (ep_finalize (new 4) 0).1
    ∧ (ep_finalize (ep_finalize (new 4) 0).1 1).2
        = { ring := (ep_finalize (new 4) 0).1.ring
            graph := (ep_finalize (new 4) 0).1.graph
            cursors := (ep_finalize (new 4) 0).1.cursors
            token := 1 } :=
  finalize_seals_once (new 4) 0 1

/-- C7: every completed `write` from sequence `s = current_pos` stores the
record at ring index `s & mask` (`mask = capacity − 1`), then sets the
producer cursor — cursor-table slot 0 — to `s + 1`; the position strictly
increases by exactly 1, so successive writes publish successive sequences
and no sequence is ever written twice.  `write` has no error result: the
`Option` in the embedding models only the busy-wait that blocks until a slot
is free. -/
theorem write_publishes (s s' : State) (d : Nat)
    (hmask : s.mask = s.size - 1)
    (hnw : s.current_pos + 1 < 2 ^ 64)
    (hw : write s d = some s') :
    s'.ring = s.ring.set (s.current_pos &&& (s.size - 1)) d
    ∧ s'.current_pos = s.current_pos + 1
    ∧ s'.cursors = s.cursors.set 0 (s.current_pos + 1)
    ∧ s.current_pos < s'.current_pos := by
  obtain ⟨_, hs'⟩ := write_some_inv s d s' hw
  have hfields : (can_write s).2.ring = s.ring
      ∧ (can_write s).2.current_pos = s.current_pos
      ∧ (can_write s).2.cursors = s.cursors
      ∧ (can_write s).2.mask = s.mask := by
    unfold can_write
    by_cases h : s.«until» = s.current_pos &&& s.mask
    · rw [if_pos h]
      cases scanLoop s.current_pos s.size (s.cursors.drop 1) U64MAX
      · exact ⟨rfl, rfl, rfl, rfl⟩
      · exact ⟨rfl, rfl, rfl, rfl⟩
    · rw [if_neg h]
      exact ⟨rfl, rfl, rfl, rfl⟩
  obtain ⟨hor, hop, hoc, hom⟩ := hfields
  subst hs'
  have hmod : (s.current_pos + 1) % 2 ^ 64 = s.current_pos + 1 := Nat.mod_eq_of_lt hnw
  refine ⟨?_, ?_, ?_, ?_⟩
  · show (can_write s).2.ring.set ((can_write s).2.current_pos &&& (can_write s).2.mask) d
        = s.ring.set (s.current_pos &&& (s.size - 1)) d
    rw [hor, hop, hom, hmask]
  · show ((can_write s).2.current_pos + 1) % 2 ^ 64 = s.current_pos + 1
    rw [hop, hmod]
  · show (can_write s).2.cursors.set 0 (((can_write s).2.current_pos + 1) % 2 ^ 64)
        = s.cursors.set 0 (s.current_pos + 1)
    rw [hoc, hop, hmod]
  · show s.current_pos < ((can_write s).2.current_pos + 1) % 2 ^ 64
    rw [hop, hmod]
    omega

theorem write_publishes_witness :
    (startupState 2).mask = (startupState 2).size - 1
    ∧ (startupState 2).current_pos + 1 < 2 ^ 64
    ∧ write (startupState 2) 19 = some writeOnce
    ∧ (writeOnce.ring = (startupState 2).ring.set
          ((startupState 2).current_pos &&& ((startupState 2).size - 1)) 19
        ∧ writeOnce.current_pos = (startupState 2).current_pos + 1
        ∧ writeOnce.cursors
            = (startupState 2).cursors.set 0 ((startupState 2).current_pos + 1)
        ∧ (startupState 2).current_pos < writeOnce.current_pos) :=
  ⟨by decide, by decide, by decide,
    write_publishes (startupState 2) writeOnce 19 (by decide) (by decide) (by decide)⟩

/-- C8 counterexample: the producer-side cursor operations of `lib.rs` are
annotated `Ordering::SeqCst` — the store in `write` (line 368) is not a
release store and the loads in `can_write` (lines 389/391) are not acquire
loads. -/
theorem orderings_not_release_acquire :
    ¬(writeCursorStoreOrdering = MemOrdering.release
      ∧ canWriteCursorLoadOrdering = MemOrdering.acquire) := by
  decide

/-- C8 amended: every cursor store and every cursor load in the producer
code under `src/` uses `SeqCst` ordering (which is strictly stronger than,
and implies, the release/acquire pairing the spec describes). -/
theorem orderings_seqcst :
    writeCursorStoreOrdering = MemOrdering.seqCst
    ∧ canWriteCursorLoadOrdering = MemOrdering.seqCst :=
  ⟨rfl, rfl⟩

/-- C9: on an unsealed builder, calling `ep_depends` with a dependent index
never returned by `ep_new` (index ≥ number of builder slots) does not return
`Err`: it hits the failing bounds check of the pre-1.0 `Vec::get_mut` (a
task failure, modelled as `none`); the `Err` result arises only on a sealed
builder, so totality of `ep_depends` needs the precondition that the id came
from `ep_new`. -/
theorem ep_depends_out_of_bounds (s : State) (i d : Nat) :
    (s.finalized = false → s.epb.length ≤ i → ep_depends s i d = none)
    ∧ (∀ x, ep_depends s i d = some x → x.1 = Except.error () → s.finalized = true) := by
  constructor
  · intro hf hi
    exact ep_depends_oob s i d hf hi
  · intro x hx he
    cases hq : s.finalized with
    | true => rfl
    | false =>
      by_cases hi : i < s.epb.length
      · rw [ep_depends_unsealed s i d hq hi] at hx
        injection hx with hx'
        rw [← hx'] at he
        exact absurd he (by simp)
      · rw [ep_depends_oob s i d hq (by omega)] at hx
        exact absurd hx (by simp)

theorem ep_depends_out_of_bounds_witness :
    (builderOne.finalized = false → builderOne.epb.length ≤ 3 →
      ep_depends builderOne 3 0 = none)
    ∧ (∀ x, ep_depends builderOne 3 0 = some x → x.1 = Except.error () →
        builderOne.finalized = true) :=
  ep_depends_out_of_bounds builderOne 3 0

/-- C10: consumer ids are dense and sequential — on an unsealed builder the
next `ep_new` returns exactly the number of consumers created so far (each
success appends exactly one slot) — and the cursor table built at
finalization has one entry per consumer after the producer cursor at slot 0,
so the cursor of consumer `k` sits at table index `k + 1` (value 0 at
finalization). -/
theorem consumer_ids_dense (s : State) (k : Nat) (hf : s.finalized = false)
    (hk : k < s.epb.length) :
    (ep_new s).1 = Except.ok s.epb.length
    ∧ (ep_new s).2.epb.length = s.epb.length + 1
    ∧ (finalize_graph s).cursors.length = s.epb.length + 1
    ∧ (finalize_graph s).cursors[k + 1]? = some 0 := by
  refine ⟨?_, ?_, ?_, ?_⟩
  · rw [ep_new_unsealed s hf]
  · rw [ep_new_unsealed s hf]
    show (s.epb ++ [none]).length = s.epb.length + 1
    simp
  · show (0 :: s.epb.map (fun _ => 0)).length = s.epb.length + 1
    simp
  · show (0 :: s.epb.map (fun _ => 0))[k + 1]? = some 0
    have hk' : k < (s.epb.map (fun _ : Option (List Nat) => (0 : Nat))).length := by
      simpa using hk
    simp only [List.getElem?_cons_succ]
    rw [List.getElem?_eq_getElem hk']
    simp

theorem consumer_ids_dense_witness :
    builderOne.finalized = false ∧ 0 < builderOne.epb.length
    ∧ ((ep_new builderOne).1 = Except.ok builderOne.epb.length
      ∧ (ep_new builderOne).2.epb.length = builderOne.epb.length + 1
      ∧ (finalize_graph builderOne).cursors.length = builderOne.epb.length + 1
      ∧ (finalize_graph builderOne).cursors[0 + 1]? = some 0) :=
  ⟨by decide, by decide, consumer_ids_dense builderOne 0 (by decide) (by decide)⟩

end Turbine
